import Mathlib

/-! # A counting TCP greeter in three variants

Verification development for `counter.go` (unsynchronised counter), `counter_atomic.go`
(`atomic.AddInt64`) and `counter_mutex.go` (`sync.Mutex`), and for the check made by
`counter_test.go`.

The embedding:

* The program is a transition system. A state holds the `Server` struct, the frame of the
  goroutine running `Serve`, and one record per goroutine running `handleClient`. One
  transition executes one statement of one goroutine (`ServeStep`, `handleClientStep`); a
  schedule is the list of the goroutines that move, in order, and `run` executes it. A
  goroutine that cannot move (`Accept` with nothing to return, `Lock` on a held mutex, a
  function that has returned) keeps the state as it is, so every list is a schedule.
* Every shared-memory access is one transition, and transitions are interleaved: this is
  sequential consistency. `srv.numClients += 1` is two transitions (load, store) where the
  source uses the plain statement and one where it uses `atomic.AddInt64`. The reads of
  `numClients` in `counter.go` and `counter_atomic.go` are plain loads of a word that only
  `Serve` writes; such a load returns a value that was written, which is what a
  transition placed at some point of the interleaving returns.
* `net.Listener` is the list of results its `Accept` calls return; `net.Conn` records the
  calls made on it. `fmt.Sprintf` is modelled for the verb `%d`, the only one the
  repository uses, and `strings.Contains` as substring search; strings are ASCII here, so
  characters stand for bytes.
* `numClients` (`int`, `int64`) is an unbounded integer. The counter never exceeds the number
  of connections the listener returns (`numClients_in_range`), so the model is exact for
  every run in which that number fits the type: an `int64` wraps at 2^63 connections.
* Fields described as history variables flow only into other history variables, never
  into a variable of the program; they name past values in the statements.
-/

namespace RaceDetector

/-- The character of the decimal digit `d`, for `d < 10`. -/
def digitChar (d : Nat) : Char := Char.ofNat (48 + d)

/-- The decimal digits of `u`, most significant first, as `%d` prints an unsigned value;
`fuel` bounds the number of digits. -/
def fmtUintAux : Nat → Nat → List Char
  | 0, u => [digitChar (u % 10)]
  | fuel + 1, u =>
    if 10 ≤ u then fmtUintAux fuel (u / 10) ++ [digitChar (u % 10)] else [digitChar u]

/-- The decimal numeral of a natural number. -/
def fmtUint (u : Nat) : List Char := fmtUintAux u u

/-- What the verb `%d` prints for an integer: a minus sign for a negative value, then the
digits of the absolute value. -/
def fmtInt : Int → List Char
  | Int.ofNat u => fmtUint u
  | Int.negSucc u => '-' :: fmtUint (u + 1)

/-- The value of a decimal digit character. -/
def digitVal (c : Char) : Nat := c.toNat - 48

/-- The natural number a string of decimal digits denotes. -/
def decVal (cs : List Char) : Nat := cs.foldl (fun a c => 10 * a + digitVal c) 0

/-- The integer a decimal numeral denotes: an optional leading minus sign and digits. -/
def intVal : List Char → Int
  | [] => 0
  | c :: cs => if c = '-' then -((decVal cs : Nat) : Int) else ((decVal (c :: cs) : Nat) : Int)

/-- Substring search on character lists: `sub` occurs in `s` at some position. -/
def containsAux : List Char → List Char → Bool
  | [], sub => sub.isEmpty
  | c :: s, sub => sub.isPrefixOf (c :: s) || containsAux s sub

/-- Model of `strings.Contains(s, substr)`. -/
def stringsContains (s substr : String) : Bool := containsAux s.toList substr.toList

/-- Expansion of a format: each `%d` is replaced by the next argument (by `%!d(MISSING)`
when there is none), every other character is copied. -/
def sprintfAux : List Char → List Int → List Char
  | [], _ => []
  | [c], _ => [c]
  | c :: d :: rest, args =>
    if c = '%' ∧ d = 'd' then
      match args with
      | a :: as => fmtInt a ++ sprintfAux rest as
      | [] => "%!d(MISSING)".toList ++ sprintfAux rest []
    else c :: sprintfAux (d :: rest) args

/-- Model of `fmt.Sprintf(format, args...)` for formats whose only verb is `%d`. -/
def Sprintf (format : String) (args : List Int) : String :=
  String.mk (sprintfAux format.toList args)

/-- The text `handleClient` sends for the counter value `n`. -/
def greeting (n : Int) : String := Sprintf "Ciao, sei il client #%d che si connette a me\n" [n]

/-! ## The program as a transition system -/

/-- The three source files: `counter.go`, `counter_atomic.go`, `counter_mutex.go`. -/
inductive Variant where
  | racy
  | atomic
  | mutex
  deriving DecidableEq

/-- Goroutines: the one running `Serve`, and the one started by the `go` statement for the
`k`-th accepted connection (0-based). -/
inductive Tid where
  | serve
  | handler (k : Nat)
  deriving DecidableEq

/-- Per-connection state of §4.2 of the specification. -/
inductive ConnStatus where
  | Accepted
  | Writing
  | Closed
  deriving DecidableEq

/-- A call made on a `net.Conn`. -/
inductive ConnOp where
  | write (text : String) (ok : Bool)
  | close
  deriving DecidableEq

/-- A `net.Conn` as seen by the server: `writeOk` is the outcome the transport gives to a
write; `ops` records the calls made on it, oldest first; `history` the statuses it has had. -/
structure Conn where
  writeOk : Bool
  status : ConnStatus
  history : List ConnStatus
  ops : List ConnOp
  deriving DecidableEq

/-- The connection as returned by `Accept`. -/
def Conn.fresh (w : Bool) : Conn :=
  { writeOk := w, status := .Accepted, history := [.Accepted], ops := [] }

/-- Model of `io.WriteString(conn, text)`: the result (byte count, error) is not used by the
caller; a write on a closed connection fails. -/
def Conn.WriteString (c : Conn) (text : String) : Conn :=
  match c.status with
  | .Closed => { c with ops := c.ops ++ [.write text false] }
  | _ => { c with status := .Writing, history := c.history ++ [.Writing],
                  ops := c.ops ++ [.write text c.writeOk] }

/-- Model of `conn.Close()`: the returned error is not used by the caller. -/
def Conn.Close (c : Conn) : Conn :=
  { c with status := .Closed, history := c.history ++ [.Closed], ops := c.ops ++ [.close] }

/-- What one call of `srv.conn.Accept()` returns: a connection (with the outcome its
transport will give to a write) or an error. -/
inductive AcceptResult where
  | conn (writeOk : Bool)
  | err
  deriving DecidableEq

/-- Whether the result of `Accept` is a connection. -/
def AcceptResult.isConn : AcceptResult → Bool
  | .conn _ => true
  | .err => false

/-- The `Server` struct. `conn` is the listener, given by the results its successive
`Accept` calls return (an exhausted list: `Accept` blocks). `numClientLock` exists in
`counter_mutex.go` only; `none` is unlocked, and the holder is recorded for the proofs.
`numClients` is `int` (`int64` in `counter_atomic.go`), modelled in `ℤ`. -/
structure Server where
  conn : List AcceptResult
  numClientLock : Option Tid
  numClients : Int
  deriving DecidableEq

/-- Program points of `Serve`. `load`/`store` are the two halves of `srv.numClients += 1`
(`counter.go`, `counter_mutex.go`); `add` is `atomic.AddInt64` (`counter_atomic.go`);
`lock`/`unlock` exist in `counter_mutex.go` only. -/
inductive ServePc where
  | accept
  | lock
  | load
  | store
  | add
  | unlock
  | spawn
  | returned
  deriving DecidableEq

/-- Program points of `handleClient`. `read` evaluates `srv.numClients`; `lock`/`unlock`
exist in `counter_mutex.go` only. -/
inductive HandlerPc where
  | lock
  | read
  | unlock
  | write
  | close
  | done
  deriving DecidableEq

/-- A goroutine running `handleClient(conn)`. `nc` is the value read from the counter.
`ticket` and `acceptedAtRead` are history variables, not read by the program: the value of
the counter right after the increment made for this connection (in `counter_atomic.go`, the
result of `atomic.AddInt64`, which `Serve` drops), and the number of connections `Accept`
had returned when `read` executed. -/
structure Handler where
  pc : HandlerPc
  conn : Conn
  nc : Int
  ticket : Int
  acceptedAtRead : Nat
  deriving DecidableEq

/-- The whole program state: the server, the frame of `Serve` (`pc`, local `conn`, the
value `tmp` loaded by `+=`, the value `ret` of the counter right after the increment), the
handler goroutines in spawn order, and two history counters: the number of connections
`Accept` has returned and the number of `log.Print` calls. -/
structure State where
  srv : Server
  pc : ServePc
  conn : Bool
  tmp : Int
  ret : Int
  handlers : List Handler
  accepted : Nat
  logged : Nat
  deriving DecidableEq

/-- First program point of `handleClient`. -/
def handlerEntry : Variant → HandlerPc
  | .mutex => .lock
  | _ => .read

/-- Program point of `handleClient` after the read of the counter. -/
def afterRead : Variant → HandlerPc
  | .mutex => .unlock
  | _ => .write

/-- The goroutine created by `go srv.handleClient(conn)`; `ticket` is a history variable. -/
def Handler.spawned (v : Variant) (w : Bool) (ticket : Int) : Handler :=
  { pc := handlerEntry v, conn := Conn.fresh w, nc := 0, ticket := ticket, acceptedAtRead := 0 }

/-- Program point of `Serve` after `srv.numClients += 1`. -/
def afterStore : Variant → ServePc
  | .mutex => .unlock
  | _ => .spawn

/-- First program point of `Serve` after a successful `Accept`. -/
def afterAccept : Variant → ServePc
  | .racy => .load
  | .atomic => .add
  | .mutex => .lock

/-- One step of the goroutine running `Serve`. A step that cannot proceed (`Accept` with
nothing to return, `Lock` on a held mutex, a returned function) leaves the state as it is. -/
def ServeStep (v : Variant) (s : State) : State :=
  match s.pc with
  | .accept =>
    match s.srv.conn with
    | [] => s
    | .err :: rest =>
      { s with srv := { s.srv with conn := rest }, logged := s.logged + 1, pc := .returned }
    | .conn w :: rest =>
      { s with srv := { s.srv with conn := rest }, conn := w, accepted := s.accepted + 1,
               pc := afterAccept v }
  | .lock =>
    match s.srv.numClientLock with
    | none => { s with srv := { s.srv with numClientLock := some .serve }, pc := .load }
    | some _ => s
  | .load => { s with tmp := s.srv.numClients, pc := .store }
  | .store =>
    { s with srv := { s.srv with numClients := s.tmp + 1 }, ret := s.tmp + 1,
             pc := afterStore v }
  | .add =>
    { s with srv := { s.srv with numClients := s.srv.numClients + 1 },
             ret := s.srv.numClients + 1, pc := .spawn }
  | .unlock => { s with srv := { s.srv with numClientLock := none }, pc := .spawn }
  | .spawn =>
    { s with handlers := s.handlers ++ [Handler.spawned v s.conn s.ret], pc := .accept }
  | .returned => s

/-- One step of the goroutine running `handleClient` for the `k`-th accepted connection. -/
def handleClientStep (v : Variant) (k : Nat) (s : State) : State :=
  match s.handlers[k]? with
  | none => s
  | some h =>
    match h.pc with
    | .lock =>
      match s.srv.numClientLock with
      | none =>
        { s with srv := { s.srv with numClientLock := some (.handler k) },
                 handlers := s.handlers.set k { h with pc := .read } }
      | some _ => s
    | .read =>
      let h' : Handler :=
        { h with nc := s.srv.numClients, acceptedAtRead := s.accepted, pc := afterRead v }
      { s with handlers := s.handlers.set k h' }
    | .unlock =>
      { s with srv := { s.srv with numClientLock := none },
               handlers := s.handlers.set k { h with pc := .write } }
    | .write =>
      let h' : Handler := { h with conn := h.conn.WriteString (greeting h.nc), pc := .close }
      { s with handlers := s.handlers.set k h' }
    | .close =>
      { s with handlers := s.handlers.set k { h with conn := h.conn.Close, pc := .done } }
    | .done => s

/-- One step of the goroutine `t`. -/
def step (v : Variant) (t : Tid) (s : State) : State :=
  match t with
  | .serve => ServeStep v s
  | .handler k => handleClientStep v k s

/-- The state after the goroutines have been scheduled in the order `sched`. -/
def run (v : Variant) (sched : List Tid) (s : State) : State :=
  sched.foldl (fun s t => step v t s) s

/-- The state in which `Serve` starts on a server just returned by `NewServer`. -/
def start (srv : Server) : State :=
  { srv := srv, pc := .accept, conn := false, tmp := 0, ret := 0, handlers := [],
    accepted := 0, logged := 0 }

/-- A fresh server whose listener will return `rs`. -/
def freshServer (rs : List AcceptResult) : Server :=
  { conn := rs, numClientLock := none, numClients := 0 }

/-- The state reached on a fresh server whose listener returns `rs`, after `NewServer`
has succeeded and `Serve` has started, under the schedule `sched`. -/
def reach (v : Variant) (rs : List AcceptResult) (sched : List Tid) : State :=
  run v sched (start (freshServer rs))

/-- Number of connections accepted by `Serve` whose handler is not spawned yet. -/
def ServePc.inFlight : ServePc → Nat
  | .accept => 0
  | .returned => 0
  | _ => 1

/-- Whether the connection in flight has been counted: 1 after the increment, else 0. -/
def ServePc.counted : ServePc → Nat
  | .unlock => 1
  | .spawn => 1
  | _ => 0

/-- Program points of `Serve` that exist in the variant. -/
def ServePc.ok : Variant → ServePc → Bool
  | _, .accept => true
  | _, .spawn => true
  | _, .returned => true
  | .mutex, .lock => true
  | .mutex, .unlock => true
  | .mutex, .load => true
  | .mutex, .store => true
  | .racy, .load => true
  | .racy, .store => true
  | .atomic, .add => true
  | _, _ => false

/-- Program points of `Serve` between its `Lock()` and its `Unlock()`. -/
def ServePc.critical : ServePc → Bool
  | .load => true
  | .store => true
  | .unlock => true
  | _ => false

/-- Program points of `handleClient` that exist in the variant. -/
def HandlerPc.ok : Variant → HandlerPc → Bool
  | .mutex, _ => true
  | _, .lock => false
  | _, .unlock => false
  | _, _ => true

/-- Program points of `handleClient` between its `Lock()` and its `Unlock()`. -/
def HandlerPc.critical : HandlerPc → Bool
  | .read => true
  | .unlock => true
  | _ => false

/-- Program points of `handleClient` after the read of the counter. -/
def HandlerPc.hasRead : HandlerPc → Bool
  | .lock => false
  | .read => false
  | _ => true

/-- Program points of `handleClient` after `io.WriteString`. -/
def HandlerPc.hasWritten : HandlerPc → Bool
  | .close => true
  | .done => true
  | _ => false

/-- The connection of a handler at program point `pc`. -/
def connAt (pc : HandlerPc) (w : Bool) (nc : Int) : Conn :=
  match pc with
  | .close => (Conn.fresh w).WriteString (greeting nc)
  | .done => ((Conn.fresh w).WriteString (greeting nc)).Close
  | _ => Conn.fresh w

/-- What holds of the handler of the `k`-th connection (0-based) when the counter is
`numClients` and `accepted` connections have been accepted. -/
structure HandlerInv (v : Variant) (numClients : Int) (accepted : Nat) (k : Nat) (h : Handler) :
    Prop where
  pc_ok : h.pc.ok v = true
  ticket_eq : h.ticket = (k : Int) + 1
  conn_eq : h.conn = connAt h.pc h.conn.writeOk h.nc
  nc_ge : h.pc.hasRead = true → (k : Int) + 1 ≤ h.nc
  nc_le : h.pc.hasRead = true → h.nc ≤ numClients
  nc_le_acc : h.pc.hasRead = true → h.nc ≤ (h.acceptedAtRead : Int)
  acc_le_nc : h.pc.hasRead = true → (h.acceptedAtRead : Int) ≤ h.nc + 1
  acc_le : h.pc.hasRead = true → h.acceptedAtRead ≤ accepted

/-- What holds in every state reached from the start of `Serve` on a fresh server whose
listener returns `rs`. -/
structure StateInv (v : Variant) (rs : List AcceptResult) (s : State) : Prop where
  pc_ok : s.pc.ok v = true
  accepted_eq : s.accepted = s.handlers.length + s.pc.inFlight
  num_eq : s.srv.numClients = (s.handlers.length : Int) + (s.pc.counted : Int)
  tmp_eq : s.pc = .store → s.tmp = (s.handlers.length : Int)
  ret_eq : s.pc.counted = 1 → s.ret = (s.handlers.length : Int) + 1
  lock_serve : s.srv.numClientLock = some .serve ↔ (v = .mutex ∧ s.pc.critical = true)
  lock_handler : ∀ k, s.srv.numClientLock = some (.handler k) ↔
    (v = .mutex ∧ ∃ h, s.handlers[k]? = some h ∧ h.pc.critical = true)
  handler_inv : ∀ k h, s.handlers[k]? = some h →
    HandlerInv v s.srv.numClients s.accepted k h
  queue_eq : s.srv.conn = rs.drop (s.accepted + s.logged)
  logged_eq : s.logged = if s.pc = .returned then 1 else 0
  flag_eq : ∀ (k : Nat) (h : Handler), s.handlers[k]? = some h → rs[k]? = some (AcceptResult.conn h.conn.writeOk)
  cur_eq : s.pc.inFlight = 1 → rs[s.handlers.length]? = some (AcceptResult.conn s.conn)
  err_at : s.pc = .returned → rs[s.accepted]? = some AcceptResult.err

/-- Whether the next step of `Serve` makes `Accept` return a connection. -/
def State.acceptsConn (s : State) : Bool :=
  match s.pc, s.srv.conn with
  | .accept, .conn _ :: _ => true
  | _, _ => false

/-- A run is sequential when, each time `Accept` returns a connection, the handlers of all
earlier connections have read the counter and written their greeting (the test dials the
next connection only after it has read the previous line). -/
def sequential (v : Variant) : List Tid → State → Bool
  | [], _ => true
  | t :: ts, s =>
    (if t = .serve ∧ s.acceptsConn = true then s.handlers.all (fun h => h.pc.hasWritten)
     else true) && sequential v ts (step v t s)

/-- Number of steps of one iteration of the loop of `Serve`. -/
def iterSteps : Variant → Nat
  | .racy => 4
  | .atomic => 3
  | .mutex => 6

/-- Number of steps of `handleClient`. -/
def handlerSteps : Variant → Nat
  | .mutex => 5
  | _ => 3

/-- Number of connections the listener returns before its first error. -/
def leadingConns (rs : List AcceptResult) : Nat := (rs.takeWhile AcceptResult.isConn).length

/-- Steps `Serve` still has to make in the current iteration before it is back at `Accept`. -/
def ServePc.rest : Variant → ServePc → Nat
  | .mutex, .lock => 5
  | .mutex, .load => 4
  | .mutex, .store => 3
  | _, .load => 3
  | _, .store => 2
  | _, .add => 2
  | _, .unlock => 2
  | _, .spawn => 1
  | _, _ => 0

/-- Steps `handleClient` still has to make from a program point. -/
def HandlerPc.rest : Variant → HandlerPc → Nat
  | _, .lock => 5
  | .mutex, .read => 4
  | _, .read => 3
  | _, .unlock => 3
  | _, .write => 2
  | _, .close => 1
  | _, .done => 0

/-- The texts of the write calls made on a connection. -/
def Conn.written (c : Conn) : List String :=
  c.ops.filterMap (fun op =>
    match op with
    | .write text _ => some text
    | .close => none)

/-- The values 1, ..., n. -/
def oneTo (n : Nat) : List Int := (List.range n).map (fun (k : Nat) => (k : Int) + 1)

/-- One round of the canonical sequential schedule: a whole iteration of the loop of
`Serve`, then the whole handler of the connection it accepted. -/
def roundOf (v : Variant) (k : Nat) : List Tid :=
  List.replicate (iterSteps v) .serve ++ List.replicate (handlerSteps v) (.handler k)

/-- The canonical sequential schedule for `n` connections. -/
def seqSchedule (v : Variant) : Nat → List Tid
  | 0 => []
  | n + 1 => seqSchedule v n ++ roundOf v n

/-- The finished handler of a connection that was the `n`-th accepted and read `n`. -/
def doneHandler (w : Bool) (n : Nat) : Handler :=
  { pc := .done, conn := ((Conn.fresh w).WriteString (greeting (n : Int))).Close,
    nc := (n : Int), ticket := (n : Int), acceptedAtRead := n }

/-- Largest value of an `int64`. -/
def maxInt64 : Int := 2 ^ 63 - 1

/-! ## Decimal numerals, the greeting and the marker -/

theorem digitVal_digitChar (d : Nat) (h : d < 10) : digitVal (digitChar d) = d := by
  interval_cases d <;> rfl

theorem digitChar_ne (d : Nat) (h : d < 10) :
    digitChar d ≠ '#' ∧ digitChar d ≠ ' ' ∧ digitChar d ≠ '\n' ∧ digitChar d ≠ '-' := by
  interval_cases d <;> decide

theorem decVal_append_singleton (xs : List Char) (c : Char) :
    decVal (xs ++ [c]) = 10 * decVal xs + digitVal c := by
  simp [decVal, List.foldl_append]

theorem decVal_fmtUintAux (fuel : Nat) : ∀ u, u ≤ fuel → decVal (fmtUintAux fuel u) = u := by
  induction fuel with
  | zero =>
    intro u hu
    have : u = 0 := by omega
    subst this
    rfl
  | succ fuel ih =>
    intro u hu
    unfold fmtUintAux
    split_ifs with h
    · rw [decVal_append_singleton, ih (u / 10) (by omega), digitVal_digitChar _ (by omega)]
      omega
    · have : decVal [digitChar u] = digitVal (digitChar u) := by simp [decVal]
      rw [this, digitVal_digitChar _ (by omega)]

theorem decVal_fmtUint (u : Nat) : decVal (fmtUint u) = u := decVal_fmtUintAux u u le_rfl

theorem fmtUint_injective : Function.Injective fmtUint := by
  intro a b h
  have := congrArg decVal h
  simpa [decVal_fmtUint] using this

theorem fmtUintAux_digits (fuel : Nat) : ∀ u, ∀ c ∈ fmtUintAux fuel u, ∃ d, d < 10 ∧ c = digitChar d := by
  induction fuel with
  | zero =>
    intro u c hc
    simp [fmtUintAux] at hc
    exact ⟨u % 10, by omega, hc⟩
  | succ fuel ih =>
    intro u c hc
    unfold fmtUintAux at hc
    split_ifs at hc with h
    · rcases List.mem_append.mp hc with h1 | h1
      · exact ih _ c h1
      · simp at h1
        exact ⟨u % 10, by omega, h1⟩
    · simp at hc
      exact ⟨u, by omega, hc⟩

theorem containsAux_iff (s sub : List Char) : containsAux s sub = true ↔ sub <:+: s := by
  induction s with
  | nil =>
    simp [containsAux, List.isEmpty_iff]
  | cons c s ih =>
    simp only [containsAux, Bool.or_eq_true, ih, List.isPrefixOf_iff_prefix]
    rw [List.infix_cons_iff]


theorem greeting_toList (n : Int) : (greeting n).toList =
    "Ciao, sei il client #".toList ++ fmtInt n ++ " che si connette a me\n".toList := rfl

theorem marker_toList (m : Int) : (Sprintf "#%d " [m]).toList = '#' :: (fmtInt m ++ [' ']) := rfl

theorem fmtUint_chars (u : Nat) (c : Char) (hc : c ∈ fmtUint u) :
    c ≠ '#' ∧ c ≠ ' ' ∧ c ≠ '\n' ∧ c ≠ '-' := by
  obtain ⟨d, hd, rfl⟩ := fmtUintAux_digits u u c hc
  exact digitChar_ne d hd

theorem fmtInt_chars (n : Int) (c : Char) (hc : c ∈ fmtInt n) :
    c ≠ '#' ∧ c ≠ ' ' ∧ c ≠ '\n' := by
  cases n with
  | ofNat u =>
    have := fmtUint_chars u c hc
    exact ⟨this.1, this.2.1, this.2.2.1⟩
  | negSucc u =>
    simp only [fmtInt, List.mem_cons] at hc
    rcases hc with rfl | hc
    · decide
    · have := fmtUint_chars _ c hc
      exact ⟨this.1, this.2.1, this.2.2.1⟩

theorem fmtUintAux_ne_nil (fuel u : Nat) : fmtUintAux fuel u ≠ [] := by
  cases fuel with
  | zero => simp [fmtUintAux]
  | succ fuel =>
    unfold fmtUintAux
    split_ifs <;> simp

theorem intVal_fmtInt (n : Int) : intVal (fmtInt n) = n := by
  cases n with
  | ofNat u =>
    simp only [fmtInt]
    cases hf : fmtUint u with
    | nil => exact absurd hf (fmtUintAux_ne_nil u u)
    | cons c cs =>
      have hc : c ≠ '-' := (fmtUint_chars u c (by rw [hf]; simp)).2.2.2
      simp only [intVal, hc, if_false]
      rw [← hf, decVal_fmtUint]
      rfl
  | negSucc u =>
    simp only [fmtInt, intVal, if_true, decVal_fmtUint]
    rfl

theorem split_unique {α : Type} (x : α) (p b P B : List α) (hP : x ∉ P) (hB : x ∉ B)
    (h : p ++ x :: b = P ++ x :: B) : p = P ∧ b = B := by
  induction p generalizing P with
  | nil =>
    cases P with
    | nil => simpa using h
    | cons y P =>
      simp at h
      exact absurd h.1 (by intro e; exact hP (by simp [e]))
  | cons y p ih =>
    cases P with
    | nil =>
      simp at h
      exact absurd h.2 (by intro e; exact hB (by simp [← e]))
    | cons z P =>
      simp at h
      obtain ⟨h1, h2⟩ := ih P (by intro e; exact hP (by simp [e])) h.2
      exact ⟨by rw [h.1, h1], h2⟩

theorem split_first {α : Type} (x : α) (a b a' b' : List α) (ha : x ∉ a) (ha' : x ∉ a')
    (h : a ++ x :: b = a' ++ x :: b') : a = a' := by
  induction a generalizing a' with
  | nil =>
    cases a' with
    | nil => rfl
    | cons y a' =>
      simp at h
      exact absurd h.1 (by intro e; exact ha' (by simp [e]))
  | cons y a ih =>
    cases a' with
    | nil =>
      simp at h
      exact absurd h.1 (by intro e; exact ha (by simp [e]))
    | cons z a' =>
      simp at h
      rw [h.1, ih a' (by intro e; exact ha (by simp [e])) (by intro e; exact ha' (by simp [e])) h.2]

theorem contains_marker_iff (n m : Nat) :
    stringsContains (greeting (n : Int)) (Sprintf "#%d " [(m : Int)]) = true ↔ m = n := by
  unfold stringsContains
  rw [containsAux_iff, greeting_toList, marker_toList]
  have hn : fmtInt (n : Int) = fmtUint n := rfl
  have hm : fmtInt (m : Int) = fmtUint m := rfl
  rw [hn, hm]
  constructor
  · rintro ⟨p, q, hpq⟩
    have e1 : "Ciao, sei il client #".toList = "Ciao, sei il client ".toList ++ ['#'] := by decide
    have e2 : " che si connette a me\n".toList = ' ' :: "che si connette a me\n".toList := by decide
    rw [e1, e2] at hpq
    simp only [List.append_assoc, List.cons_append, List.nil_append] at hpq
    have hB : '#' ∉ fmtUint n ++ ' ' :: "che si connette a me\n".toList := by
      intro hmem
      rcases List.mem_append.mp hmem with h1 | h1
      · exact (fmtUint_chars n _ h1).1 rfl
      · revert h1; decide
    obtain ⟨-, h2⟩ := split_unique '#' p _ _ _ (by decide) hB hpq
    have := split_first ' ' (fmtUint m) _ (fmtUint n) _
      (fun h => (fmtUint_chars m _ h).2.1 rfl) (fun h => (fmtUint_chars n _ h).2.1 rfl) h2
    exact fmtUint_injective this
  · rintro rfl
    refine ⟨"Ciao, sei il client ".toList, "che si connette a me\n".toList, ?_⟩
    have e1 : "Ciao, sei il client #".toList = "Ciao, sei il client ".toList ++ ['#'] := by decide
    have e2 : " che si connette a me\n".toList = ' ' :: "che si connette a me\n".toList := by decide
    rw [e1, e2]
    simp

theorem greeting_single_line (n : Int) :
    ∃ body : List Char, (greeting n).toList = body ++ ['\n'] ∧ '\n' ∉ body := by
  refine ⟨"Ciao, sei il client #".toList ++ fmtInt n ++ " che si connette a me".toList, ?_, ?_⟩
  · rw [greeting_toList]
    have e : " che si connette a me\n".toList = " che si connette a me".toList ++ ['\n'] := by decide
    rw [e]
    simp
  · intro hmem
    rcases List.mem_append.mp hmem with h1 | h1
    · rcases List.mem_append.mp h1 with h2 | h2
      · revert h2; decide
      · exact (fmtInt_chars n _ h2).2.2 rfl
    · revert h1; decide


/-! ## The invariant of the reachable states -/

theorem drop_eq_cons {α : Type} (l : List α) (n : Nat) (x : α) (xs : List α)
    (h : l.drop n = x :: xs) : l[n]? = some x ∧ l.drop (n + 1) = xs := by
  induction l generalizing n with
  | nil => simp at h
  | cons a l ih =>
    cases n with
    | zero =>
      simp at h
      simp [h.1, h.2]
    | succ n =>
      simp at h
      simpa using ih n h

theorem getElem?_snoc_eq_some {α : Type} (l : List α) (a h : α) (k : Nat) :
    (l ++ [a])[k]? = some h ↔ l[k]? = some h ∨ (k = l.length ∧ h = a) := by
  rcases Nat.lt_trichotomy k l.length with hk | hk | hk
  · rw [List.getElem?_append_left hk]
    constructor
    · exact Or.inl
    · rintro (h1 | ⟨h1, _⟩)
      · exact h1
      · omega
  · subst hk
    simp [eq_comm]
  · rw [List.getElem?_eq_none (by simp; omega), List.getElem?_eq_none (by omega)]
    simp
    omega

theorem inv_start (v : Variant) (rs : List AcceptResult) : StateInv v rs (start (freshServer rs)) := by
  refine ⟨?_, ?_, ?_, ?_, ?_, ?_, ?_, ?_, ?_, ?_, ?_, ?_, ?_⟩ <;>
    simp [start, freshServer, ServePc.ok, ServePc.inFlight, ServePc.counted, ServePc.critical]

theorem HandlerInv.mono {v : Variant} {n n' : Int} {a a' : Nat} {k : Nat} {h : Handler}
    (hi : HandlerInv v n a k h) (hn : n ≤ n') (ha : a ≤ a') : HandlerInv v n' a' k h :=
  { hi with
    nc_le := fun hr => le_trans (hi.nc_le hr) hn
    acc_le := fun hr => le_trans (hi.acc_le hr) ha }

theorem inv_ServeStep (v : Variant) (rs : List AcceptResult) (s : State) (hs : StateInv v rs s) :
    StateInv v rs (ServeStep v s) := by
  obtain ⟨pc_ok, accepted_eq, num_eq, tmp_eq, ret_eq, lock_serve, lock_handler, handler_inv,
    queue_eq, logged_eq, flag_eq, cur_eq, err_at⟩ := id hs
  cases hpc : s.pc with
  | accept =>
    simp only [ServeStep, hpc]
    simp only [hpc, ServePc.inFlight, ServePc.counted, ServePc.critical, reduceCtorEq, if_false,
      add_zero, Nat.cast_zero, Bool.false_eq_true, and_false, iff_false] at pc_ok accepted_eq num_eq tmp_eq ret_eq lock_serve logged_eq cur_eq err_at
    cases hq : s.srv.conn with
    | nil => simpa only [hq] using hs
    | cons r rest =>
      rw [hq, logged_eq, add_zero] at queue_eq
      obtain ⟨hget, hdrop⟩ := drop_eq_cons _ _ _ _ queue_eq.symm
      cases r with
      | err =>
        simp only [hq]
        refine ⟨by simp [ServePc.ok], by simp [ServePc.inFlight, accepted_eq],
          by simp [ServePc.counted, num_eq], by simp, by simp [ServePc.counted],
          by simp [ServePc.critical, lock_serve], lock_handler, handler_inv,
          by simp [logged_eq, hdrop], by simp [logged_eq], flag_eq,
          by simp [ServePc.inFlight], by simp [hget]⟩
      | conn w =>
        simp only [hq]
        refine ⟨by cases v <;> rfl, by cases v <;> simp [afterAccept, ServePc.inFlight, accepted_eq],
          by cases v <;> simp [afterAccept, ServePc.counted, num_eq],
          by cases v <;> simp [afterAccept], by cases v <;> simp [afterAccept, ServePc.counted],
          by cases v <;> simp [afterAccept, ServePc.critical, lock_serve], lock_handler,
          fun k h hk => (handler_inv k h hk).mono le_rfl (Nat.le_succ _),
          by cases v <;> simp [afterAccept, logged_eq, hdrop],
          by cases v <;> simp [afterAccept, logged_eq], flag_eq,
          by intro _; simp [← accepted_eq, hget], by cases v <;> simp [afterAccept]⟩
  | lock =>
    simp only [ServeStep, hpc]
    have hv : v = .mutex := by cases v <;> simp_all [ServePc.ok]
    subst hv
    simp only [hpc, ServePc.inFlight, ServePc.counted, ServePc.critical, reduceCtorEq, if_false,
      add_zero, Nat.cast_zero, Bool.false_eq_true, and_false, iff_false] at pc_ok accepted_eq num_eq tmp_eq ret_eq lock_serve logged_eq cur_eq err_at
    cases hl : s.srv.numClientLock with
    | some t => simpa only [hl] using hs
    | none =>
      simp only [hl]
      refine ⟨rfl, by simp [ServePc.inFlight, accepted_eq], by simp [ServePc.counted, num_eq],
        by simp, by simp [ServePc.counted], by simp [ServePc.critical], ?_, handler_inv,
        by simp [logged_eq, queue_eq], by simp [logged_eq], flag_eq,
        by simpa [ServePc.inFlight] using cur_eq, by simp⟩
      intro k
      have := lock_handler k
      simp only [hl, reduceCtorEq, false_iff] at this
      simp [this]
  | load =>
    simp only [ServeStep, hpc]
    simp only [hpc, ServePc.inFlight, ServePc.counted, ServePc.critical, reduceCtorEq, if_false,
      add_zero, Nat.cast_zero, Bool.false_eq_true, and_false, iff_false] at pc_ok accepted_eq num_eq tmp_eq ret_eq lock_serve logged_eq cur_eq err_at
    refine ⟨by cases v <;> simp_all [ServePc.ok], by simp [ServePc.inFlight, accepted_eq],
      by simp [ServePc.counted, num_eq], by simp [num_eq], by simp [ServePc.counted],
      by simpa [ServePc.critical] using lock_serve, lock_handler, handler_inv,
      by simp [logged_eq, queue_eq], by simp [logged_eq], flag_eq,
      by simpa [ServePc.inFlight] using cur_eq, by simp⟩
  | store =>
    simp only [ServeStep, hpc]
    simp only [hpc, ServePc.inFlight, ServePc.counted, ServePc.critical, reduceCtorEq, if_false,
      add_zero, Nat.cast_zero, Bool.false_eq_true, and_false, iff_false] at pc_ok accepted_eq num_eq tmp_eq ret_eq lock_serve logged_eq cur_eq err_at
    have htmp := tmp_eq trivial
    refine ⟨by cases v <;> simp_all [ServePc.ok, afterStore],
      by cases v <;> simp [afterStore, ServePc.inFlight, accepted_eq],
      by cases v <;> simp [afterStore, ServePc.counted, htmp],
      by cases v <;> simp [afterStore], by cases v <;> simp [afterStore, htmp],
      by cases v <;> simp_all [afterStore, ServePc.critical, ServePc.ok], lock_handler,
      fun k h hk => (handler_inv k h hk).mono (by simp [num_eq, htmp]) le_rfl,
      by cases v <;> simp [afterStore, logged_eq, queue_eq],
      by cases v <;> simp [afterStore, logged_eq], flag_eq,
      by cases v <;> simpa [afterStore, ServePc.inFlight] using cur_eq,
      by cases v <;> simp [afterStore]⟩
  | add =>
    simp only [ServeStep, hpc]
    have hv : v = .atomic := by cases v <;> simp_all [ServePc.ok]
    subst hv
    simp only [hpc, ServePc.inFlight, ServePc.counted, ServePc.critical, reduceCtorEq, if_false,
      add_zero, Nat.cast_zero, Bool.false_eq_true, and_false, iff_false] at pc_ok accepted_eq num_eq tmp_eq ret_eq lock_serve logged_eq cur_eq err_at
    refine ⟨rfl, by simp [ServePc.inFlight, accepted_eq], by simp [ServePc.counted, num_eq],
      by simp, by simp [num_eq], by simpa [ServePc.critical] using lock_serve, lock_handler,
      fun k h hk => (handler_inv k h hk).mono (by simp) le_rfl,
      by simp [logged_eq, queue_eq], by simp [logged_eq], flag_eq,
      by simpa [ServePc.inFlight] using cur_eq, by simp⟩
  | unlock =>
    simp only [ServeStep, hpc]
    have hv : v = .mutex := by cases v <;> simp_all [ServePc.ok]
    subst hv
    simp only [hpc, ServePc.inFlight, ServePc.counted, ServePc.critical, reduceCtorEq, if_false,
      add_zero, Nat.cast_zero, Bool.false_eq_true, and_false, iff_false] at pc_ok accepted_eq num_eq tmp_eq ret_eq lock_serve logged_eq cur_eq err_at
    have hl : s.srv.numClientLock = some .serve := by simpa using lock_serve
    refine ⟨rfl, by simp [ServePc.inFlight, accepted_eq], by simp [ServePc.counted, num_eq],
      by simp, by simpa [ServePc.counted] using ret_eq, by simp [ServePc.critical], ?_,
      handler_inv, by simp [logged_eq, queue_eq], by simp [logged_eq], flag_eq,
      by simpa [ServePc.inFlight] using cur_eq, by simp⟩
    intro k
    have := lock_handler k
    simp only [hl, Option.some.injEq, reduceCtorEq, false_iff] at this
    simp [this]
  | spawn =>
    simp only [ServeStep, hpc]
    simp only [hpc, ServePc.inFlight, ServePc.counted, ServePc.critical, reduceCtorEq, if_false,
      add_zero, Nat.cast_zero, Bool.false_eq_true, and_false, iff_false] at pc_ok accepted_eq num_eq tmp_eq ret_eq lock_serve logged_eq cur_eq err_at
    have hret := ret_eq trivial
    have hcur := cur_eq trivial
    have hentry : (handlerEntry v).ok v = true := by cases v <;> rfl
    have hcrit : ¬ (v = .mutex ∧ (handlerEntry v).critical = true) := by cases v <;> simp [handlerEntry, HandlerPc.critical]
    have hnr : (handlerEntry v).hasRead = false := by cases v <;> rfl
    refine ⟨by cases v <;> rfl, by simp [ServePc.inFlight, accepted_eq],
      by simp [ServePc.counted, num_eq],
      by simp, by simp [ServePc.counted], by simpa [ServePc.critical] using lock_serve, ?_, ?_,
      by simp [logged_eq, queue_eq], by simp [logged_eq], ?_, by simp [ServePc.inFlight], by simp⟩
    · intro k
      rw [lock_handler k]
      constructor
      · rintro ⟨hv, h, hk, hc⟩
        exact ⟨hv, h, (getElem?_snoc_eq_some _ _ _ _).mpr (Or.inl hk), hc⟩
      · rintro ⟨hv, h, hk, hc⟩
        rcases (getElem?_snoc_eq_some _ _ _ _).mp hk with hk | ⟨_, rfl⟩
        · exact ⟨hv, h, hk, hc⟩
        · exact absurd ⟨hv, hc⟩ hcrit
    · intro k h hk
      rcases (getElem?_snoc_eq_some _ _ _ _).mp hk with hk | ⟨rfl, rfl⟩
      · exact handler_inv k h hk
      · refine ⟨hentry, hret, ?_, ?_, ?_, ?_, ?_, ?_⟩ <;>
          simp [Handler.spawned, hnr]
        cases v <;> rfl
    · intro k h hk
      rcases (getElem?_snoc_eq_some _ _ _ _).mp hk with hk | ⟨rfl, rfl⟩
      · exact flag_eq k h hk
      · simpa [Handler.spawned, Conn.fresh] using hcur
  | returned => simpa only [ServeStep, hpc] using hs

theorem getElem?_set_eq_some {α : Type} (l : List α) (k k' : Nat) (a x h : α)
    (hk : l[k]? = some h) :
    (l.set k a)[k']? = some x ↔ (k' = k ∧ x = a) ∨ (k' ≠ k ∧ l[k']? = some x) := by
  have hlt : k < l.length := by
    by_contra hge
    rw [List.getElem?_eq_none (by omega)] at hk
    exact absurd hk (by simp)
  by_cases hkk : k' = k
  · subst hkk
    simp [List.getElem?_set_self, hlt, eq_comm]
  · rw [List.getElem?_set_ne (Ne.symm hkk)]
    simp [hkk]

@[simp]
theorem Conn.writeOk_WriteString (c : Conn) (t : String) :
    (c.WriteString t).writeOk = c.writeOk := by
  unfold Conn.WriteString
  cases c.status <;> rfl

@[simp]
theorem Conn.writeOk_Close (c : Conn) : c.Close.writeOk = c.writeOk := rfl

/-- Replacing the handler of connection `k` by one that satisfies its own invariant, and the
lock by one that agrees with the program points, keeps the invariant. -/
theorem inv_setHandler (v : Variant) (rs : List AcceptResult) (s : State) (hs : StateInv v rs s)
    (k : Nat) (h h' : Handler) (l' : Option Tid) (hk : s.handlers[k]? = some h)
    (hinv : HandlerInv v s.srv.numClients s.accepted k h')
    (hw : h'.conn.writeOk = h.conn.writeOk)
    (hls : l' = some .serve ↔ (v = .mutex ∧ s.pc.critical = true))
    (hlh : ∀ k', l' = some (.handler k') ↔
      (v = .mutex ∧ ∃ x, (s.handlers.set k h')[k']? = some x ∧ x.pc.critical = true)) :
    StateInv v rs (State.mk (Server.mk s.srv.conn l' s.srv.numClients) s.pc s.conn s.tmp s.ret
      (s.handlers.set k h') s.accepted s.logged) := by
  obtain ⟨pc_ok, accepted_eq, num_eq, tmp_eq, ret_eq, _, _, handler_inv,
    queue_eq, logged_eq, flag_eq, cur_eq, err_at⟩ := hs
  refine ⟨pc_ok, by simpa using accepted_eq, by simpa using num_eq, by simpa using tmp_eq,
    by simpa using ret_eq, hls, hlh, ?_, queue_eq, logged_eq, ?_, by simpa using cur_eq, err_at⟩
  · intro k' x hx
    rcases (getElem?_set_eq_some _ _ _ _ _ _ hk).mp hx with ⟨rfl, rfl⟩ | ⟨_, hx⟩
    · exact hinv
    · exact handler_inv k' x hx
  · intro k' x hx
    rcases (getElem?_set_eq_some _ _ _ _ _ _ hk).mp hx with ⟨rfl, rfl⟩ | ⟨_, hx⟩
    · rw [hw]
      exact flag_eq _ _ hk
    · exact flag_eq k' x hx

theorem counted_le_inFlight (pc : ServePc) : pc.counted ≤ pc.inFlight ∧ pc.inFlight ≤ pc.counted + 1 := by
  cases pc <;> simp [ServePc.counted, ServePc.inFlight]

theorem inv_handleClientStep (v : Variant) (rs : List AcceptResult) (s : State)
    (hs : StateInv v rs s) (k : Nat) : StateInv v rs (handleClientStep v k s) := by
  cases hk : s.handlers[k]? with
  | none => simpa only [handleClientStep, hk] using hs
  | some h =>
    have hi := hs.handler_inv k h hk
    have hlt : k < s.handlers.length := by
      by_contra hge
      rw [List.getElem?_eq_none (by omega)] at hk
      exact absurd hk (by simp)
    have hsame : ∀ (h' : Handler), (v = .mutex → h'.pc.critical = h.pc.critical) →
        ∀ k', s.srv.numClientLock = some (.handler k') ↔
          (v = .mutex ∧ ∃ x, (s.handlers.set k h')[k']? = some x ∧ x.pc.critical = true) := by
      intro h' hc k'
      rw [hs.lock_handler k']
      constructor
      · rintro ⟨hv, x, hx, hxc⟩
        refine ⟨hv, ?_⟩
        by_cases hkk : k' = k
        · subst hkk
          rw [hk] at hx
          cases hx
          exact ⟨h', (getElem?_set_eq_some _ _ _ _ _ _ hk).mpr (Or.inl ⟨rfl, rfl⟩), by rw [hc hv]; exact hxc⟩
        · exact ⟨x, (getElem?_set_eq_some _ _ _ _ _ _ hk).mpr (Or.inr ⟨hkk, hx⟩), hxc⟩
      · rintro ⟨hv, x, hx, hxc⟩
        refine ⟨hv, ?_⟩
        rcases (getElem?_set_eq_some _ _ _ _ _ _ hk).mp hx with ⟨rfl, rfl⟩ | ⟨_, hx⟩
        · exact ⟨h, hk, by rw [← hc hv]; exact hxc⟩
        · exact ⟨x, hx, hxc⟩
    cases hpc : h.pc with
    | lock =>
      have hv : v = .mutex := by
        have := hi.pc_ok
        rw [hpc] at this
        cases v <;> simp_all [HandlerPc.ok]
      subst hv
      cases hl : s.srv.numClientLock with
      | some t => simpa only [handleClientStep, hk, hpc, hl] using hs
      | none =>
        simp only [handleClientStep, hk, hpc, hl]
        refine inv_setHandler _ rs s hs k h _ _ hk ?_ rfl ?_ ?_
        · exact ⟨rfl, hi.ticket_eq, by simpa [connAt, hpc] using hi.conn_eq, by simp [HandlerPc.hasRead],
            by simp [HandlerPc.hasRead], by simp [HandlerPc.hasRead], by simp [HandlerPc.hasRead],
            by simp [HandlerPc.hasRead]⟩
        · have := hs.lock_serve
          rw [hl] at this
          simpa using this
        · intro k'
          constructor
          · intro hkk
            simp only [Option.some.injEq, Tid.handler.injEq] at hkk
            subst hkk
            exact ⟨rfl, _, (getElem?_set_eq_some _ _ _ _ _ _ hk).mpr (Or.inl ⟨rfl, rfl⟩), rfl⟩
          · rintro ⟨_, x, hx, hxc⟩
            rcases (getElem?_set_eq_some _ _ _ _ _ _ hk).mp hx with ⟨rfl, rfl⟩ | ⟨_, hx⟩
            · rfl
            · have := (hs.lock_handler k').mpr ⟨rfl, x, hx, hxc⟩
              rw [hl] at this
              exact absurd this (by simp)
    | read =>
      simp only [handleClientStep, hk, hpc]
      have hb := counted_le_inFlight s.pc
      have hnum := hs.num_eq
      have hacc := hs.accepted_eq
      have key := inv_setHandler v rs s hs k h
        { h with nc := s.srv.numClients, acceptedAtRead := s.accepted, pc := afterRead v }
        s.srv.numClientLock hk
        ⟨by cases v <;> rfl, hi.ticket_eq,
          by cases v <;> simpa [connAt, hpc, afterRead] using hi.conn_eq,
          fun _ => by simp only [hnum]; omega, fun _ => le_rfl,
          fun _ => by simp only [hnum, hacc]; omega,
          fun _ => by simp only [hnum, hacc]; omega, fun _ => le_rfl⟩
        rfl hs.lock_serve
        (hsame _ (by intro hv; subst hv; simp [afterRead, hpc, HandlerPc.critical]))
      exact key
    | unlock =>
      have hv : v = .mutex := by
        have := hi.pc_ok
        rw [hpc] at this
        cases v <;> simp_all [HandlerPc.ok]
      subst hv
      have hl : s.srv.numClientLock = some (.handler k) :=
        (hs.lock_handler k).mpr ⟨rfl, h, hk, by rw [hpc]; rfl⟩
      have hr : h.pc.hasRead = true := by rw [hpc]; rfl
      simp only [handleClientStep, hk, hpc]
      refine inv_setHandler _ rs s hs k h _ _ hk ?_ rfl ?_ ?_
      · exact ⟨rfl, hi.ticket_eq, by simpa [connAt, hpc] using hi.conn_eq, fun _ => hi.nc_ge hr,
          fun _ => hi.nc_le hr, fun _ => hi.nc_le_acc hr, fun _ => hi.acc_le_nc hr,
          fun _ => hi.acc_le hr⟩
      · have := hs.lock_serve
        rw [hl] at this
        simpa using this
      · intro k'
        constructor
        · intro hkk
          exact absurd hkk (by simp)
        · rintro ⟨_, x, hx, hxc⟩
          rcases (getElem?_set_eq_some _ _ _ _ _ _ hk).mp hx with ⟨rfl, rfl⟩ | ⟨hne, hx⟩
          · exact absurd hxc (by simp [HandlerPc.critical])
          · have := (hs.lock_handler k').mpr ⟨rfl, x, hx, hxc⟩
            rw [hl] at this
            simp only [Option.some.injEq, Tid.handler.injEq] at this
            exact absurd this.symm hne
    | write =>
      have hr : h.pc.hasRead = true := by rw [hpc]; rfl
      simp only [handleClientStep, hk, hpc]
      have hc : h.conn = Conn.fresh h.conn.writeOk := by simpa [connAt, hpc] using hi.conn_eq
      exact inv_setHandler v rs s hs k h
        { h with conn := h.conn.WriteString (greeting h.nc), pc := .close }
        s.srv.numClientLock hk
        ⟨by cases v <;> rfl, hi.ticket_eq, by simp only [connAt, Conn.writeOk_WriteString]; rw [← hc],
          fun _ => hi.nc_ge hr, fun _ => hi.nc_le hr, fun _ => hi.nc_le_acc hr,
          fun _ => hi.acc_le_nc hr, fun _ => hi.acc_le hr⟩
        (by simp) hs.lock_serve (hsame _ (by intro _; simp [hpc, HandlerPc.critical]))
    | close =>
      have hr : h.pc.hasRead = true := by rw [hpc]; rfl
      simp only [handleClientStep, hk, hpc]
      have hc : h.conn = (Conn.fresh h.conn.writeOk).WriteString (greeting h.nc) := by
        simpa [connAt, hpc] using hi.conn_eq
      exact inv_setHandler v rs s hs k h { h with conn := h.conn.Close, pc := .done }
        s.srv.numClientLock hk
        ⟨by cases v <;> rfl, hi.ticket_eq, by simp only [connAt, Conn.writeOk_Close]; rw [← hc],
          fun _ => hi.nc_ge hr, fun _ => hi.nc_le hr, fun _ => hi.nc_le_acc hr,
          fun _ => hi.acc_le_nc hr, fun _ => hi.acc_le hr⟩
        (by simp) hs.lock_serve (hsame _ (by intro _; simp [hpc, HandlerPc.critical]))
    | done => simpa only [handleClientStep, hk, hpc] using hs

theorem inv_step (v : Variant) (rs : List AcceptResult) (t : Tid) (s : State)
    (hs : StateInv v rs s) : StateInv v rs (step v t s) := by
  cases t with
  | serve => exact inv_ServeStep v rs s hs
  | handler k => exact inv_handleClientStep v rs s hs k

theorem inv_run (v : Variant) (rs : List AcceptResult) (sched : List Tid) :
    ∀ s, StateInv v rs s → StateInv v rs (run v sched s) := by
  induction sched with
  | nil => intro s hs; exact hs
  | cons t ts ih => intro s hs; exact ih _ (inv_step v rs t s hs)

theorem inv_reachable (v : Variant) (rs : List AcceptResult) (sched : List Tid) :
    StateInv v rs (run v sched (start (freshServer rs))) :=
  inv_run v rs sched _ (inv_start v rs)

theorem run_append (v : Variant) (a b : List Tid) (s : State) :
    run v (a ++ b) s = run v b (run v a s) := by
  simp [run, List.foldl_append]

/-! ## Sequential runs -/

theorem getElem?_lt {α : Type} {l : List α} {k : Nat} {h : α} (hk : l[k]? = some h) :
    k < l.length := by
  by_contra hge
  rw [List.getElem?_eq_none (by omega)] at hk
  exact absurd hk (by simp)

/-- A step of a handler either does nothing or replaces its own record (and possibly the
lock), moving forward in `handleClient`. -/
theorem handleClientStep_cases (v : Variant) (k : Nat) (s : State) (h : Handler)
    (hk : s.handlers[k]? = some h) :
    handleClientStep v k s = s ∨
    ∃ (h' : Handler) (l' : Option Tid),
      handleClientStep v k s = State.mk (Server.mk s.srv.conn l' s.srv.numClients) s.pc s.conn
        s.tmp s.ret (s.handlers.set k h') s.accepted s.logged ∧
      (h.pc.hasWritten = true → h'.pc.hasWritten = true) ∧
      (h.pc.hasRead = true → h'.pc.hasRead = true ∧ h'.nc = h.nc) ∧
      (h.pc.hasRead = false → h'.pc.hasRead = true → h.pc = .read ∧ h'.nc = s.srv.numClients) := by
  cases hpc : h.pc with
  | lock =>
    cases hl : s.srv.numClientLock with
    | some t => left; simp only [handleClientStep, hk, hpc, hl]
    | none =>
      right
      exact ⟨_, _, by simp only [handleClientStep, hk, hpc, hl]; rfl,
        by simp [HandlerPc.hasWritten], by simp [HandlerPc.hasRead], by simp [HandlerPc.hasRead]⟩
  | read =>
    right
    exact ⟨_, _, by simp only [handleClientStep, hk, hpc]; rfl,
      by simp [HandlerPc.hasWritten], by simp [HandlerPc.hasRead], by simp [HandlerPc.hasRead]⟩
  | unlock =>
    right
    exact ⟨_, _, by simp only [handleClientStep, hk, hpc]; rfl,
      by simp [HandlerPc.hasWritten], by simp [HandlerPc.hasRead], by simp [HandlerPc.hasRead]⟩
  | write =>
    right
    exact ⟨_, _, by simp only [handleClientStep, hk, hpc]; rfl,
      by simp [HandlerPc.hasWritten], by simp [HandlerPc.hasRead], by simp [HandlerPc.hasRead]⟩
  | close =>
    right
    exact ⟨_, _, by simp only [handleClientStep, hk, hpc]; rfl,
      by simp [HandlerPc.hasWritten], by simp [HandlerPc.hasRead], by simp [HandlerPc.hasRead]⟩
  | done => left; simp only [handleClientStep, hk, hpc]

theorem handleClientStep_none (v : Variant) (k : Nat) (s : State) (hk : s.handlers[k]? = none) :
    handleClientStep v k s = s := by
  simp only [handleClientStep, hk]

/-- What a step of a handler leaves unchanged. -/
theorem handleClientStep_frame (v : Variant) (k : Nat) (s : State) :
    (handleClientStep v k s).srv.numClients = s.srv.numClients ∧
    (handleClientStep v k s).srv.conn = s.srv.conn ∧
    (handleClientStep v k s).pc = s.pc ∧
    (handleClientStep v k s).accepted = s.accepted ∧
    (handleClientStep v k s).logged = s.logged ∧
    (handleClientStep v k s).handlers.length = s.handlers.length := by
  cases hk : s.handlers[k]? with
  | none => rw [handleClientStep_none v k s hk]; simp
  | some h =>
    rcases handleClientStep_cases v k s h hk with he | ⟨h', l', he, _⟩
    · rw [he]; simp
    · rw [he]; simp

theorem le_leadingConns (rs : List AcceptResult) :
    ∀ a, (∀ i, i < a → ∃ w, rs[i]? = some (AcceptResult.conn w)) → a ≤ leadingConns rs := by
  induction rs with
  | nil =>
    intro a h
    cases a with
    | zero => exact Nat.zero_le _
    | succ a => simpa using h 0 (Nat.succ_pos _)
  | cons r rs ih =>
    intro a h
    cases a with
    | zero => exact Nat.zero_le _
    | succ a =>
      cases r with
      | err => simpa using h 0 (Nat.succ_pos _)
      | conn w =>
        have := ih a (fun i hi => by simpa using h (i + 1) (by omega))
        simp [leadingConns, AcceptResult.isConn] at this ⊢
        exact this

/-- In a reachable state every connection accepted so far is one of the connections the
listener returns before its first error. -/
theorem StateInv.accepted_le {v : Variant} {rs : List AcceptResult} {s : State}
    (hs : StateInv v rs s) : s.accepted ≤ leadingConns rs := by
  apply le_leadingConns
  intro i hi
  rw [hs.accepted_eq] at hi
  by_cases hlt : i < s.handlers.length
  · obtain ⟨h, hh⟩ : ∃ h, s.handlers[i]? = some h := ⟨s.handlers[i], by simp [hlt]⟩
    exact ⟨_, hs.flag_eq i h hh⟩
  · have hin : s.pc.inFlight = 1 := by
      cases hp : s.pc <;> simp_all [ServePc.inFlight]
    have : i = s.handlers.length := by omega
    subst this
    exact ⟨_, hs.cur_eq hin⟩

theorem getElem?_set_self_of_some {α : Type} (l : List α) (k : Nat) (a h : α)
    (hk : l[k]? = some h) : (l.set k a)[k]? = some a :=
  (getElem?_set_eq_some l k k a a h hk).mpr (Or.inl ⟨rfl, rfl⟩)

/-- While no other goroutine holds the lock, a step of a handler is one step closer to the
end of `handleClient`. -/
theorem handlerRest_step (v : Variant) (rs : List AcceptResult) (s : State)
    (hs : StateInv v rs s) (k : Nat) (h : Handler) (hk : s.handlers[k]? = some h)
    (hfree : ∀ t, s.srv.numClientLock = some t → t = .handler k) :
    ∃ h', (handleClientStep v k s).handlers[k]? = some h' ∧
      h'.pc.rest v = h.pc.rest v - 1 ∧
      (∀ t, (handleClientStep v k s).srv.numClientLock = some t → t = .handler k) := by
  have hi := hs.handler_inv k h hk
  have hok := hi.pc_ok
  cases hpc : h.pc with
  | lock =>
    have hv : v = .mutex := by cases v <;> simp_all [HandlerPc.ok]
    subst hv
    cases hl : s.srv.numClientLock with
    | some t =>
      exfalso
      have ht := hfree t hl
      subst ht
      obtain ⟨_, x, hx, hxc⟩ := (hs.lock_handler k).mp hl
      rw [hk] at hx
      cases hx
      simp [hpc, HandlerPc.critical] at hxc
    | none =>
      simp only [handleClientStep, hk, hpc, hl]
      exact ⟨_, getElem?_set_self_of_some _ _ _ _ hk, rfl, by simp⟩
  | read =>
    simp only [handleClientStep, hk, hpc]
    exact ⟨_, getElem?_set_self_of_some _ _ _ _ hk, by cases v <;> rfl, hfree⟩
  | unlock =>
    simp only [handleClientStep, hk, hpc]
    exact ⟨_, getElem?_set_self_of_some _ _ _ _ hk, by cases v <;> rfl, by simp⟩
  | write =>
    simp only [handleClientStep, hk, hpc]
    exact ⟨_, getElem?_set_self_of_some _ _ _ _ hk, by cases v <;> rfl, hfree⟩
  | close =>
    simp only [handleClientStep, hk, hpc]
    exact ⟨_, getElem?_set_self_of_some _ _ _ _ hk, by cases v <;> rfl, hfree⟩
  | done =>
    simp only [handleClientStep, hk, hpc]
    exact ⟨h, rfl, by cases v <;> simp [hpc, HandlerPc.rest], hfree⟩

theorem handlerRest_run (v : Variant) (rs : List AcceptResult) (k : Nat) (m : Nat) :
    ∀ (s : State) (h : Handler), StateInv v rs s → s.handlers[k]? = some h →
      (∀ t, s.srv.numClientLock = some t → t = .handler k) →
      ∃ h', (run v (List.replicate m (.handler k)) s).handlers[k]? = some h' ∧
        h'.pc.rest v = h.pc.rest v - m := by
  induction m with
  | zero => intro s h _ hk _; exact ⟨h, hk, rfl⟩
  | succ m ih =>
    intro s h hs hk hfree
    obtain ⟨h1, hk1, hr1, hf1⟩ := handlerRest_step v rs s hs k h hk hfree
    obtain ⟨h2, hk2, hr2⟩ := ih _ h1 (inv_handleClientStep v rs s hs k) hk1 hf1
    refine ⟨h2, ?_, ?_⟩
    · simpa only [List.replicate_succ, run, List.foldl_cons, step] using hk2
    · rw [hr2, hr1]
      omega

theorem handlerRest_le (v : Variant) (pc : HandlerPc) : pc.rest v ≤ 5 := by
  cases v <;> cases pc <;> simp [HandlerPc.rest]

theorem handlerRest_eq_zero (v : Variant) (pc : HandlerPc) (h : pc.rest v = 0) : pc = .done := by
  cases v <;> cases pc <;> simp_all [HandlerPc.rest]

theorem run_cons (v : Variant) (t : Tid) (ts : List Tid) (s : State) :
    run v (t :: ts) s = run v ts (step v t s) := rfl

theorem run_nil (v : Variant) (s : State) : run v [] s = s := rfl

/-- One iteration of the loop of `Serve` that accepts a connection, run without
interruption while no handler holds the lock: the counter goes up by one and the handler
is spawned with the connection. -/
theorem serve_iteration (v : Variant) (s : State) (w : Bool) (rest : List AcceptResult)
    (hpc : s.pc = .accept) (hc : s.srv.conn = .conn w :: rest)
    (hl : s.srv.numClientLock = none) :
    ∃ tmp, run v (List.replicate (iterSteps v) .serve) s =
      State.mk (Server.mk rest none (s.srv.numClients + 1)) .accept w tmp (s.srv.numClients + 1)
        (s.handlers ++ [Handler.spawned v w (s.srv.numClients + 1)]) (s.accepted + 1)
        s.logged := by
  cases v with
  | racy =>
    refine ⟨s.srv.numClients, ?_⟩
    simp [iterSteps, List.replicate, run, step, ServeStep, hpc, hc, hl, afterAccept, afterStore]
  | atomic =>
    refine ⟨s.tmp, ?_⟩
    simp [iterSteps, List.replicate, run, step, ServeStep, hpc, hc, hl, afterAccept, afterStore]
  | mutex =>
    refine ⟨s.srv.numClients, ?_⟩
    simp [iterSteps, List.replicate, run, step, ServeStep, hpc, hc, hl, afterAccept, afterStore]

theorem written_connAt (pc : HandlerPc) (w : Bool) (nc : Int) :
    (connAt pc w nc).written = if pc.hasWritten = true then [greeting nc] else [] := by
  cases pc <;> rfl

/-- From a reachable state in which no other goroutine holds the lock, five steps of a
handler bring it to the end of `handleClient`. -/
theorem handler_finishes (v : Variant) (rs : List AcceptResult) (s : State)
    (hs : StateInv v rs s) (k : Nat) (h : Handler) (hk : s.handlers[k]? = some h)
    (hfree : ∀ t, s.srv.numClientLock = some t → t = .handler k) :
    ∃ h', (run v (List.replicate 5 (.handler k)) s).handlers[k]? = some h' ∧ h'.pc = .done := by
  obtain ⟨h', hk', hr⟩ := handlerRest_run v rs k 5 s h hs hk hfree
  refine ⟨h', hk', handlerRest_eq_zero v _ ?_⟩
  have := handlerRest_le v h.pc
  omega

/-! ## The lock -/

theorem handleClientStep_unlock (v : Variant) (k : Nat) (s : State) (h : Handler)
    (hk : s.handlers[k]? = some h) (hpc : h.pc = .unlock) :
    (handleClientStep v k s).srv.numClientLock = none := by
  simp only [handleClientStep, hk, hpc]

/-- In the lock-guarded variant the goroutine that holds the lock releases it within three
of its own steps. -/
theorem lock_released (rs : List AcceptResult) (s : State) (hs : StateInv .mutex rs s)
    (t : Tid) (hl : s.srv.numClientLock = some t) :
    ∃ m, m ≤ 3 ∧ (run .mutex (List.replicate m t) s).srv.numClientLock = none := by
  cases t with
  | serve =>
    have hc := (hs.lock_serve.mp hl).2
    cases hpc : s.pc with
    | load =>
      exact ⟨3, le_rfl, by simp [List.replicate, run, step, ServeStep, hpc, afterStore]⟩
    | store =>
      exact ⟨2, by omega, by simp [List.replicate, run, step, ServeStep, hpc, afterStore]⟩
    | unlock =>
      exact ⟨1, by omega, by simp [List.replicate, run, step, ServeStep, hpc]⟩
    | _ => simp [hpc, ServePc.critical] at hc
  | handler k =>
    obtain ⟨_, h, hk, hc⟩ := (hs.lock_handler k).mp hl
    cases hpc : h.pc with
    | read =>
      refine ⟨2, by omega, ?_⟩
      have h1 : (handleClientStep .mutex k s).handlers[k]? =
          some { h with nc := s.srv.numClients, acceptedAtRead := s.accepted, pc := .unlock } := by
        simp only [handleClientStep, hk, hpc]
        exact getElem?_set_self_of_some _ _ _ _ hk
      simp only [List.replicate, run, List.foldl_cons, List.foldl_nil, step]
      exact handleClientStep_unlock .mutex k _ _ h1 rfl
    | unlock =>
      refine ⟨1, by omega, ?_⟩
      simp only [List.replicate, run, List.foldl_cons, List.foldl_nil, step]
      exact handleClientStep_unlock .mutex k _ _ hk hpc
    | _ => simp [hpc, HandlerPc.critical] at hc

/-- In the lock-guarded variant no goroutine other than the holder changes the lock. -/
theorem lock_kept (rs : List AcceptResult) (s : State) (hs : StateInv .mutex rs s)
    (t t' : Tid) (hl : s.srv.numClientLock = some t) (hne : t' ≠ t) :
    (step .mutex t' s).srv.numClientLock = some t := by
  cases t' with
  | serve =>
    have hnc : s.pc.critical = false := by
      cases hc : s.pc.critical with
      | false => rfl
      | true =>
        have := hs.lock_serve.mpr ⟨rfl, hc⟩
        rw [hl] at this
        simp only [Option.some.injEq] at this
        exact absurd this.symm hne
    have hok := hs.pc_ok
    cases hpc : s.pc with
    | accept =>
      cases hq : s.srv.conn with
      | nil => simp only [step, ServeStep, hpc, hq]; exact hl
      | cons r rest => cases r <;> (simp only [step, ServeStep, hpc, hq]; exact hl)
    | lock => simp only [step, ServeStep, hpc, hl]
    | spawn => simp only [step, ServeStep, hpc]; exact hl
    | returned => simp only [step, ServeStep, hpc]; exact hl
    | add => simp [hpc, ServePc.ok] at hok
    | _ => simp [hpc, ServePc.critical] at hnc
  | handler k =>
    cases hk : s.handlers[k]? with
    | none => simp only [step, handleClientStep, hk]; exact hl
    | some h =>
      have hnc : h.pc.critical = false := by
        cases hc : h.pc.critical with
        | false => rfl
        | true =>
          have := (hs.lock_handler k).mpr ⟨rfl, h, hk, hc⟩
          rw [hl] at this
          simp only [Option.some.injEq] at this
          exact absurd this.symm hne
      cases hpc : h.pc with
      | lock => simp only [step, handleClientStep, hk, hpc, hl]
      | write => simp only [step, handleClientStep, hk, hpc]; exact hl
      | close => simp only [step, handleClientStep, hk, hpc]; exact hl
      | done => simp only [step, handleClientStep, hk, hpc]; exact hl
      | _ => simp [hpc, HandlerPc.critical] at hnc

/-- The lock is free exactly when no goroutine is between its `Lock()` and `Unlock()`. -/
theorem lock_none_iff (rs : List AcceptResult) (s : State) (hs : StateInv .mutex rs s) :
    s.srv.numClientLock = none ↔
      (s.pc.critical = false ∧
        ∀ (k : Nat) (h : Handler), s.handlers[k]? = some h → h.pc.critical = false) := by
  constructor
  · intro hl
    constructor
    · cases hc : s.pc.critical with
      | false => rfl
      | true =>
        have := hs.lock_serve.mpr ⟨rfl, hc⟩
        rw [hl] at this
        exact absurd this (by simp)
    · intro k h hk
      cases hc : h.pc.critical with
      | false => rfl
      | true =>
        have := (hs.lock_handler k).mpr ⟨rfl, h, hk, hc⟩
        rw [hl] at this
        exact absurd this (by simp)
  · rintro ⟨h1, h2⟩
    cases hl : s.srv.numClientLock with
    | none => rfl
    | some t =>
      cases t with
      | serve =>
        have := (hs.lock_serve.mp hl).2
        rw [h1] at this
        exact absurd this (by simp)
      | handler k =>
        obtain ⟨_, h, hk, hc⟩ := (hs.lock_handler k).mp hl
        rw [h2 k h hk] at hc
        exact absurd hc (by simp)

/-- Outside the lock-guarded variant the lock is never taken. -/
theorem lock_none_of_ne_mutex (v : Variant) (rs : List AcceptResult) (s : State)
    (hs : StateInv v rs s) (hv : v ≠ .mutex) : s.srv.numClientLock = none := by
  cases hl : s.srv.numClientLock with
  | none => rfl
  | some t =>
    cases t with
    | serve => exact absurd (hs.lock_serve.mp hl).1 hv
    | handler k => exact absurd ((hs.lock_handler k).mp hl).1 hv

theorem ServeStep_length_le (v : Variant) (s : State) :
    s.handlers.length ≤ (ServeStep v s).handlers.length := by
  cases hpc : s.pc with
  | accept =>
    cases hc : s.srv.conn with
    | nil => simp only [ServeStep, hpc, hc]; exact le_rfl
    | cons r rest => cases r <;> (simp only [ServeStep, hpc, hc]; exact le_rfl)
  | lock => cases hl : s.srv.numClientLock <;> (simp only [ServeStep, hpc, hl]; exact le_rfl)
  | spawn => simp only [ServeStep, hpc]; simp
  | _ => simp only [ServeStep, hpc]; exact le_rfl

theorem run_length_le (v : Variant) (sched : List Tid) :
    ∀ s : State, s.handlers.length ≤ (run v sched s).handlers.length := by
  induction sched with
  | nil => intro s; exact le_rfl
  | cons t ts ih =>
    intro s
    rw [run_cons]
    refine le_trans ?_ (ih _)
    cases t with
    | serve => exact ServeStep_length_le v s
    | handler k => exact le_of_eq (handleClientStep_frame v k s).2.2.2.2.2.symm

/-- From every reachable state there is a continuation after which the lock is free. -/
theorem exists_free (v : Variant) (rs : List AcceptResult) (s : State) (hs : StateInv v rs s) :
    ∃ ext, (run v ext s).srv.numClientLock = none := by
  cases hl : s.srv.numClientLock with
  | none => exact ⟨[], by rw [run_nil, hl]⟩
  | some t =>
    have hv : v = .mutex := by
      by_contra hne
      rw [lock_none_of_ne_mutex v rs s hs hne] at hl
      exact absurd hl (by simp)
    subst hv
    obtain ⟨m, -, hm⟩ := lock_released rs s hs t hl
    exact ⟨_, hm⟩

/-- From every reachable state there is a continuation after which the handler of a
connection has reached the end of `handleClient`. -/
theorem exists_handler_done (v : Variant) (rs : List AcceptResult) (s : State)
    (hs : StateInv v rs s) (k : Nat) (hk : k < s.handlers.length) :
    ∃ ext h', (run v ext s).handlers[k]? = some h' ∧ h'.pc = .done := by
  obtain ⟨e1, h1⟩ := exists_free v rs s hs
  have hs1 := inv_run v rs e1 s hs
  have hlen := run_length_le v e1 s
  have hk1 : k < (run v e1 s).handlers.length := by omega
  obtain ⟨h', hk', hd⟩ := handler_finishes v rs _ hs1 k ((run v e1 s).handlers[k])
    (by simp [hk1]) (by intro t ht; rw [h1] at ht; exact absurd ht (by simp))
  exact ⟨e1 ++ List.replicate 5 (.handler k), h', by rw [run_append]; exact hk', hd⟩

theorem inv_reach (v : Variant) (rs : List AcceptResult) (sched : List Tid) :
    StateInv v rs (reach v rs sched) :=
  inv_reachable v rs sched

theorem reach_append (v : Variant) (rs : List AcceptResult) (a b : List Tid) :
    reach v rs (a ++ b) = run v b (reach v rs a) :=
  run_append v a b _

/-- The counter is never negative and never exceeds the number of connections the listener
returns before its first error; when that number fits an `int64`, so does every value
the counter takes, and no increment wraps. -/
theorem numClients_in_range (v : Variant) (rs : List AcceptResult) (sched : List Tid) :
    0 ≤ (reach v rs sched).srv.numClients ∧
    (reach v rs sched).srv.numClients ≤ (leadingConns rs : Int) ∧
    ((leadingConns rs : Int) ≤ maxInt64 →
      (reach v rs sched).srv.numClients ≤ maxInt64) := by
  have hs := inv_reach v rs sched
  have hnum := hs.num_eq
  have hacc := hs.accepted_eq
  have hle := hs.accepted_le
  have hb := counted_le_inFlight (reach v rs sched).pc
  refine ⟨by rw [hnum]; omega, by rw [hnum]; omega, fun hm => ?_⟩
  rw [hnum]
  omega

/-! ## The canonical sequential run -/

theorem sequential_append (v : Variant) (a b : List Tid) :
    ∀ s, sequential v (a ++ b) s = (sequential v a s && sequential v b (run v a s)) := by
  induction a with
  | nil => intro s; simp [sequential, run]
  | cons t ts ih =>
    intro s
    rw [List.cons_append, run_cons]
    simp only [sequential]
    rw [ih, Bool.and_assoc]

theorem sequential_handler_steps (v : Variant) (k m : Nat) :
    ∀ s, sequential v (List.replicate m (.handler k)) s = true := by
  induction m with
  | zero => intro s; rfl
  | succ m ih =>
    intro s
    simp [List.replicate_succ, sequential, ih]

/-- A whole handler, run without interruption on a free lock: it reads the counter as it
is, writes the greeting and closes. -/
theorem handler_round (v : Variant) (q : List AcceptResult) (n : Int) (pc : ServePc)
    (c w : Bool) (tmp ret t : Int) (hs0 : List Handler) (a lg : Nat) :
    run v (List.replicate (handlerSteps v) (.handler hs0.length))
      (State.mk (Server.mk q none n) pc c tmp ret (hs0 ++ [Handler.spawned v w t]) a lg) =
    State.mk (Server.mk q none n) pc c tmp ret
      (hs0 ++ [Handler.mk .done (((Conn.fresh w).WriteString (greeting n)).Close) n t a]) a lg := by
  cases v <;>
    simp [handlerSteps, List.replicate, run, step, handleClientStep, Handler.spawned,
      handlerEntry, afterRead]

theorem sequential_iteration (v : Variant) (s : State) (w : Bool) (rest : List AcceptResult)
    (hpc : s.pc = .accept) (hc : s.srv.conn = .conn w :: rest)
    (hl : s.srv.numClientLock = none)
    (hall : s.handlers.all (fun h => h.pc.hasWritten) = true) :
    sequential v (List.replicate (iterSteps v) .serve) s = true := by
  cases v <;>
    simp [iterSteps, List.replicate, sequential, step, ServeStep, State.acceptsConn, hpc, hc, hl,
      afterAccept, afterStore, hall]

/-- For every number of connections there is a sequential run: in the canonical one every
connection is accepted, counted and served in turn, and the `k`-th handler ends having
read and sent `k`. -/
theorem seqSchedule_run (v : Variant) (w : Bool) (n : Nat) :
    ∀ tail : List AcceptResult,
      sequential v (seqSchedule v n)
        (start (freshServer (List.replicate n (.conn w) ++ tail))) = true ∧
      ∃ c tmp ret,
        run v (seqSchedule v n) (start (freshServer (List.replicate n (.conn w) ++ tail))) =
          State.mk (Server.mk tail none (n : Int)) .accept c tmp ret
            ((List.range n).map (fun k => doneHandler w (k + 1))) n 0 := by
  induction n with
  | zero =>
    intro tail
    exact ⟨rfl, false, 0, 0, rfl⟩
  | succ n ih =>
    intro tail
    have hq : List.replicate (n + 1) (AcceptResult.conn w) ++ tail =
        List.replicate n (AcceptResult.conn w) ++ (AcceptResult.conn w :: tail) := by
      rw [List.replicate_succ']
      simp
    rw [hq]
    obtain ⟨hseq, c, tmp, ret, hrun⟩ := ih (AcceptResult.conn w :: tail)
    obtain ⟨tmp', hit⟩ := serve_iteration v _ w tail
      (show (State.mk (Server.mk (AcceptResult.conn w :: tail) none (n : Int)) .accept c tmp ret
        ((List.range n).map (fun k => doneHandler w (k + 1))) n 0).pc = .accept from rfl) rfl rfl
    have hlen : ((List.range n).map (fun k => doneHandler w (k + 1))).length = n := by simp
    have hround := handler_round v tail ((n : Int) + 1) .accept w w tmp' ((n : Int) + 1)
      ((n : Int) + 1) ((List.range n).map (fun k => doneHandler w (k + 1))) (n + 1) 0
    rw [hlen] at hround
    constructor
    · simp only [seqSchedule, roundOf]
      rw [sequential_append, hseq, sequential_append, hrun, sequential_handler_steps]
      simp only [Bool.true_and, Bool.and_true]
      apply sequential_iteration v _ w tail rfl rfl rfl
      simp [doneHandler, HandlerPc.hasWritten]
    · refine ⟨w, tmp', (n : Int) + 1, ?_⟩
      simp only [seqSchedule, roundOf]
      rw [run_append, hrun, run_append, hit, hround]
      simp [List.range_succ, doneHandler]

/-- The greetings of the canonical sequential run of `n` connections are those for
1, ..., n, in accept order. -/
theorem seqSchedule_greetings (v : Variant) (w : Bool) (n : Nat) :
    sequential v (seqSchedule v n) (start (freshServer (List.replicate n (.conn w)))) = true ∧
    (run v (seqSchedule v n) (start (freshServer (List.replicate n (.conn w))))).handlers.map
      (fun h => h.conn.written) = (oneTo n).map (fun i => [greeting i]) := by
  obtain ⟨hseq, c, tmp, ret, hrun⟩ := seqSchedule_run v w n []
  rw [List.append_nil] at hseq hrun
  refine ⟨hseq, ?_⟩
  rw [hrun]
  simp only [oneTo, List.map_map]
  apply List.map_congr_left
  intro k _
  simp only [Function.comp, doneHandler, Nat.cast_add, Nat.cast_one]
  rfl

/-! ## The claims -/

/-- C4: in every variant the text of a greeting for the counter value `N` is
`Ciao, sei il client #`, the decimal numeral of `N`, and ` che si connette a me` with a
newline; the newline is its last character and its only one; a handler makes no write
before its write step and exactly one, of `greeting nc` for the value `nc` it read,
from then on; and a handler that is not kept out of the lock gets there. -/
theorem C4_greeting_text (v : Variant) (rs : List AcceptResult) (sched : List Tid) (k : Nat)
    (h : Handler) (N : Int)
    (hget : (reach v rs sched).handlers[k]? = some h) :
    greeting N = "Ciao, sei il client #" ++ String.mk (fmtInt N) ++ " che si connette a me\n" ∧
    intVal (fmtInt N) = N ∧
    (∃ body : List Char, (greeting N).toList = body ++ ['\n'] ∧ '\n' ∉ body) ∧
    h.conn.written = (if h.pc.hasWritten = true then [greeting h.nc] else []) ∧
    ((∀ t, (reach v rs sched).srv.numClientLock = some t → t = .handler k) →
      ∃ h', (reach v rs (sched ++ List.replicate 5 (.handler k))).handlers[k]? = some h' ∧
        h'.pc = .done ∧ h'.conn.written = [greeting h'.nc]) := by
  have hs := inv_reach v rs sched
  have hi := hs.handler_inv k h hget
  refine ⟨rfl, intVal_fmtInt N, greeting_single_line N, ?_, ?_⟩
  · rw [hi.conn_eq, written_connAt]
  · intro hfree
    obtain ⟨h', hk', hd⟩ := handler_finishes v rs _ hs k h hget hfree
    rw [reach_append]
    refine ⟨h', hk', hd, ?_⟩
    have hs' := inv_run v rs (List.replicate 5 (.handler k)) _ hs
    rw [(hs'.handler_inv k h' hk').conn_eq, written_connAt, hd]
    rfl

/-- Witness of C4: the racy variant, one connection whose handler has written. -/
theorem C4_greeting_text_witness :
    (reach .racy [.conn true]
      [.serve, .serve, .serve, .serve, .handler 0, .handler 0]).handlers[0]? =
      some { pc := .close, conn := (Conn.fresh true).WriteString (greeting 1), nc := 1,
             ticket := 1, acceptedAtRead := 1 } ∧
    greeting 7 = "Ciao, sei il client #" ++ String.mk (fmtInt 7) ++ " che si connette a me\n" ∧
    ((Conn.fresh true).WriteString (greeting 1)).written = [greeting 1] :=
  ⟨by decide,
   (C4_greeting_text .racy [.conn true]
      [.serve, .serve, .serve, .serve, .handler 0, .handler 0] 0
      { pc := .close, conn := (Conn.fresh true).WriteString (greeting 1), nc := 1,
        ticket := 1, acceptedAtRead := 1 } 7 (by decide)).1,
   (C4_greeting_text .racy [.conn true]
      [.serve, .serve, .serve, .serve, .handler 0, .handler 0] 0
      { pc := .close, conn := (Conn.fresh true).WriteString (greeting 1), nc := 1,
        ticket := 1, acceptedAtRead := 1 } 7 (by decide)).2.2.2.1⟩

/-- C7: in every variant `handleClient` closes the connection whatever the write returns.
The connection of a handler is the accepted one before the write step, the accepted one
after one write of the greeting (with the outcome `writeOk` the transport gives, success
or failure) between the write and the close, and that one closed at the end: statuses
`Accepted`, `Writing`, `Closed` in this order, one write and then the close and nothing
after it. A handler that is not kept out of the lock reaches that end within five steps,
and from every reachable state some continuation brings it there.
Its steps leave the frame of `Serve`, the log and the counter as they are: nothing is
reported to the caller. -/
theorem C7_handler_closes (v : Variant) (rs : List AcceptResult) (sched : List Tid) (k : Nat)
    (h : Handler)
    (hget : (reach v rs sched).handlers[k]? = some h) :
    rs[k]? = some (AcceptResult.conn h.conn.writeOk) ∧
    (h.pc.hasWritten = false →
      h.conn.status = .Accepted ∧ h.conn.history = [.Accepted] ∧ h.conn.ops = []) ∧
    (h.pc = .close →
      h.conn.status = .Writing ∧ h.conn.history = [.Accepted, .Writing] ∧
      h.conn.ops = [.write (greeting h.nc) h.conn.writeOk]) ∧
    (h.pc = .done →
      h.conn.status = .Closed ∧ h.conn.history = [.Accepted, .Writing, .Closed] ∧
      h.conn.ops = [.write (greeting h.nc) h.conn.writeOk, .close]) ∧
    ((∀ t, (reach v rs sched).srv.numClientLock = some t → t = .handler k) →
      ∃ h', (reach v rs (sched ++ List.replicate 5 (.handler k))).handlers[k]? = some h' ∧
        h'.pc = .done ∧ h'.conn.status = .Closed ∧ h'.conn.writeOk = h.conn.writeOk ∧
        h'.conn.ops = [.write (greeting h'.nc) h.conn.writeOk, .close]) ∧
    (∃ ext h', (reach v rs (sched ++ ext)).handlers[k]? = some h' ∧
      h'.pc = .done ∧ h'.conn.status = .Closed) ∧
    ((step v (.handler k) (reach v rs sched)).pc =
        (reach v rs sched).pc ∧
      (step v (.handler k) (reach v rs sched)).logged =
        (reach v rs sched).logged ∧
      (step v (.handler k) (reach v rs sched)).srv.numClients =
        (reach v rs sched).srv.numClients ∧
      (step v (.handler k) (reach v rs sched)).srv.conn =
        (reach v rs sched).srv.conn) := by
  have hs := inv_reach v rs sched
  have hi := hs.handler_inv k h hget
  have hc := hi.conn_eq
  refine ⟨hs.flag_eq k h hget, ?_, ?_, ?_, ?_, ?_, ?_⟩
  · intro hw
    rw [hc]
    cases hpc : h.pc <;> rw [hpc] at hw <;> first
      | exact ⟨rfl, rfl, rfl⟩
      | exact absurd hw (by decide)
  · intro hpc
    rw [hc, hpc]
    simp [connAt, Conn.fresh, Conn.WriteString]
  · intro hpc
    rw [hc, hpc]
    simp [connAt, Conn.fresh, Conn.WriteString, Conn.Close]
  · intro hfree
    obtain ⟨h', hk', hd⟩ := handler_finishes v rs _ hs k h hget hfree
    have hs' := inv_run v rs (List.replicate 5 (.handler k)) _ hs
    have hc' := (hs'.handler_inv k h' hk').conn_eq
    have hw' : h'.conn.writeOk = h.conn.writeOk := by
      have h1 := hs'.flag_eq k h' hk'
      rw [hs.flag_eq k h hget] at h1
      simp only [Option.some.injEq, AcceptResult.conn.injEq] at h1
      exact h1.symm
    rw [reach_append]
    refine ⟨h', hk', hd, ?_, hw', ?_⟩
    · rw [hc', hd]; rfl
    · rw [hc', hd, hw']; rfl
  · obtain ⟨ext, h', hk', hd⟩ := exists_handler_done v rs _ hs k (getElem?_lt hget)
    have hs' := inv_run v rs ext _ hs
    have hc' := (hs'.handler_inv k h' hk').conn_eq
    refine ⟨ext, h', by rw [reach_append]; exact hk', hd, ?_⟩
    rw [hc', hd]
    rfl
  · obtain ⟨h1, h2, h3, -, h5, -⟩ := handleClientStep_frame v k (reach v rs sched)
    exact ⟨h3, h5, h1, h2⟩

/-- Witness of C7: the lock-guarded variant, a connection whose write fails; the handler
has finished and the connection is closed after the one failed write. -/
theorem C7_handler_closes_witness :
    (reach .mutex [.conn false] [.serve, .serve, .serve, .serve, .serve, .serve,
      .handler 0, .handler 0, .handler 0, .handler 0, .handler 0]).handlers[0]? =
      some { pc := .done, conn := ((Conn.fresh false).WriteString (greeting 1)).Close, nc := 1,
             ticket := 1, acceptedAtRead := 1 } ∧
    (((Conn.fresh false).WriteString (greeting 1)).Close).status = .Closed ∧
    (((Conn.fresh false).WriteString (greeting 1)).Close).history =
      [.Accepted, .Writing, .Closed] ∧
    (((Conn.fresh false).WriteString (greeting 1)).Close).ops =
      [.write (greeting 1) false, .close] :=
  ⟨by decide,
   (C7_handler_closes .mutex [.conn false]
      [.serve, .serve, .serve, .serve, .serve, .serve,
        .handler 0, .handler 0, .handler 0, .handler 0, .handler 0] 0
      { pc := .done, conn := ((Conn.fresh false).WriteString (greeting 1)).Close, nc := 1,
        ticket := 1, acceptedAtRead := 1 } (by decide)).2.2.2.1 rfl⟩

/-- Counterexample to C8: in the lock-guarded variant `Serve` is at its `go` statement
while the handler of the first connection holds the lock, and the handler of the first
connection is at its write while `Serve` holds the lock for the second connection: at
these moments the lock is not free. -/
theorem C8_counterexample :
    ((reach .mutex [.conn true, .conn true] [.serve, .serve, .serve, .serve, .serve, .serve,
      .serve, .serve, .serve, .serve, .serve, .handler 0]).pc = .spawn ∧
      (reach .mutex [.conn true, .conn true] [.serve, .serve, .serve, .serve, .serve, .serve,
      .serve, .serve, .serve, .serve, .serve, .handler 0]).srv.numClientLock =
        some (.handler 0)) ∧
    ((reach .mutex [.conn true, .conn true] [.serve, .serve, .serve, .serve, .serve, .serve,
      .handler 0, .handler 0, .handler 0, .serve, .serve]).handlers.map (fun h => h.pc) =
        [.write] ∧
      (reach .mutex [.conn true, .conn true] [.serve, .serve, .serve, .serve, .serve, .serve,
      .handler 0, .handler 0, .handler 0, .serve, .serve]).srv.numClientLock = some .serve) := by
  refine ⟨⟨by decide, by decide⟩, ⟨by decide, by decide⟩⟩

/-- C8 as amended: in the lock-guarded variant `Serve` holds the lock at both halves of
its increment and a handler holds it at its read; a goroutine holds the lock only between
its own `Lock()` and `Unlock()`: `Serve` does not hold it at `Accept`, at `Lock()`, at the
`go` statement or after its return, a handler does not hold it at `Lock()`, at its write,
at its close or at its end; the lock is free exactly when no goroutine is between its
`Lock()` and `Unlock()`; and the holder releases it within three of its own steps, while
no step of another goroutine changes it. -/
theorem C8_lock_discipline (rs : List AcceptResult) (sched : List Tid) :
    (((reach .mutex rs sched).pc = .load ∨
        (reach .mutex rs sched).pc = .store) →
      (reach .mutex rs sched).srv.numClientLock = some .serve) ∧
    (∀ (k : Nat) (h : Handler),
      (reach .mutex rs sched).handlers[k]? = some h → h.pc = .read →
      (reach .mutex rs sched).srv.numClientLock = some (.handler k)) ∧
    ((reach .mutex rs sched).srv.numClientLock = some .serve ↔
      (reach .mutex rs sched).pc.critical = true) ∧
    (∀ (k : Nat), (reach .mutex rs sched).srv.numClientLock =
        some (.handler k) ↔
      ∃ h, (reach .mutex rs sched).handlers[k]? = some h ∧
        h.pc.critical = true) ∧
    ((reach .mutex rs sched).srv.numClientLock = none ↔
      ((reach .mutex rs sched).pc.critical = false ∧
        ∀ (k : Nat) (h : Handler),
          (reach .mutex rs sched).handlers[k]? = some h →
          h.pc.critical = false)) ∧
    (∀ t, (reach .mutex rs sched).srv.numClientLock = some t →
      (∃ m, m ≤ 3 ∧
        (reach .mutex rs (sched ++ List.replicate m t)).srv.numClientLock = none) ∧
      ∀ t', t' ≠ t →
        (step .mutex t' (reach .mutex rs sched)).srv.numClientLock =
          some t) := by
  have hs := inv_reach .mutex rs sched
  refine ⟨?_, ?_, ?_, ?_, lock_none_iff rs _ hs, ?_⟩
  · intro hpc
    apply hs.lock_serve.mpr
    rcases hpc with hpc | hpc <;> simp [hpc, ServePc.critical]
  · intro k h hk hpc
    exact (hs.lock_handler k).mpr ⟨rfl, h, hk, by rw [hpc]; rfl⟩
  · rw [hs.lock_serve]
    simp
  · intro k
    rw [hs.lock_handler k]
    simp
  · intro t hl
    constructor
    · obtain ⟨m, hm, hr⟩ := lock_released rs _ hs t hl
      exact ⟨m, hm, by rw [reach_append]; exact hr⟩
    · intro t' hne
      exact lock_kept rs _ hs t t' hl hne

/-- Witness of C8 as amended: `Serve` between the two halves of its increment holds the
lock. -/
theorem C8_lock_discipline_witness :
    (reach .mutex [.conn true] [.serve, .serve, .serve]).pc = .store ∧
    (reach .mutex [.conn true] [.serve, .serve, .serve]).srv.numClientLock =
      some .serve :=
  ⟨by decide,
   (C8_lock_discipline [.conn true] [.serve, .serve, .serve]).1 (Or.inr (by decide))⟩

/-- C9: for all natural numbers `n` and `m`, the greeting for the counter value `n`
contains the marker `#m ` the test builds with `fmt.Sprintf` exactly when `m = n`. -/
theorem C9_marker_identifies_value (n m : Nat) :
    stringsContains (greeting (n : Int)) (Sprintf "#%d " [(m : Int)]) = true ↔ m = n :=
  contains_marker_iff n m

end RaceDetector
